import Mathlib

/-!
Shallow embedding of the verse-repair core of `fixJsonBible.mjs`
(JSONBible-Fixer-for-FreeShow): the verse repair engine `processVerses`,
the log grouping loop of `logGroupedErrors`, and the wrapper handling of
`readBibleFile` / `writeBibleFile`.

Verse numbers are JavaScript numbers used only with integer arithmetic,
embedded as `Int`.  A verse's `text` may be absent (`undefined` in JS),
embedded as `Option String`.  The JS code mutates the most recently
retained verse object (`lastVerse`) in place; here the retained verses
are carried in reverse order (`revResult`), whose head is `lastVerse`,
and the mutation becomes an update of that head.
-/

inductive DefectType where
  | missing
  | empty
deriving Repr, DecidableEq

/-- One entry pushed onto `verseLog`: `{ type, start, end, context }`.
The JS field `end` is named `stop` here because `end` is a Lean keyword. -/
structure LogEntry where
  type : DefectType
  start : Int
  stop : Int
  context : String
deriving Repr, DecidableEq

structure Verse where
  number : Int
  text : Option String
  endNumber : Option Int
deriving Repr, DecidableEq

/-- JS `String.prototype.trim`: remove leading and trailing whitespace
(whitespace per `Char.isWhitespace`; JS also trims a few more Unicode
space characters, immaterial here). -/
def jsTrim (s : String) : String :=
  String.mk (((s.data.dropWhile Char.isWhitespace).reverse.dropWhile Char.isWhitespace).reverse)

/-- JS `!v.text || v.text.trim() === ""`: absent text is falsy, and an
empty string is both falsy and trims to itself, so the condition is
"absent, or whitespace-only after trimming". -/
def isEmptyText : Option String → Bool
  | none => true
  | some s => jsTrim s == ""

/-- Loop state of `processVerses`.  `revResult` is the `result` array in
reverse; its head (when nonempty) is the JS `lastVerse` reference. -/
structure PVState where
  revResult : List Verse
  expectedNumber : Option Int
  fixed : Bool
  log : List LogEntry
deriving Repr, DecidableEq

/-- Perform `lastVerse.endNumber = n`: mutate the most recently retained verse. -/
def updLast (vs : List Verse) (n : Int) : List Verse :=
  match vs with
  | [] => []
  | r :: t => { r with endNumber := some n } :: t

/-- The gap block: `if (v.number > expectedNumber && lastVerse) { ... }`. -/
def gapStep (context : String) (v : Verse) (expected : Int) (st : PVState) : PVState :=
  if v.number > expected && !st.revResult.isEmpty then
    { st with fixed := true,
              revResult := updLast st.revResult (v.number - 1),
              log := st.log ++ [⟨DefectType.missing, expected, v.number - 1, context⟩] }
  else st

/-- The empty-text block: `if (!v.text || v.text.trim() === "") { if (lastVerse)
{ ... } } else { result.push(v); lastVerse = v; }`. -/
def emptyStep (context : String) (v : Verse) (st : PVState) : PVState :=
  if isEmptyText v.text then
    if st.revResult.isEmpty then st
    else
      { st with fixed := true,
                revResult := updLast st.revResult v.number,
                log := st.log ++ [⟨DefectType.empty, v.number, v.number, context⟩] }
  else
    { st with revResult := v :: st.revResult }

/-- One iteration of the `for (const v of verses)` loop.  The initial
`if (expectedNumber === null) expectedNumber = v.number` is the `getD`,
and the trailing `expectedNumber = v.number + 1` is unconditional. -/
def pvStep (context : String) (st : PVState) (v : Verse) : PVState :=
  let expected := st.expectedNumber.getD v.number
  let st1 := gapStep context v expected st
  let st2 := emptyStep context v st1
  { st2 with expectedNumber := some (v.number + 1) }

structure PVResult where
  verses : List Verse
  fixed : Bool
  log : List LogEntry
deriving Repr, DecidableEq

/-- The function `processVerses(verses, context, verseLog)`.  The JS function pushes
defect entries onto a caller-supplied `verseLog` array and returns
`{ verses: result, fixed }`; here the pushed entries are returned as
`log` (the delta on the caller's array). -/
def processVerses (verses : List Verse) (context : String) : PVResult :=
  let st := verses.foldl (pvStep context) ⟨[], none, false, []⟩
  ⟨st.revResult.reverse, st.fixed, st.log⟩

/-! ### Grouping loop of `logGroupedErrors` -/

/-- The mergeability test of the grouping loop:
`last.type === entry.type && last.context === entry.context && last.end + 1 === entry.start`. -/
def canMerge (last entry : LogEntry) : Prop :=
  last.type = entry.type ∧ last.context = entry.context ∧ last.stop + 1 = entry.start

instance (last entry : LogEntry) : Decidable (canMerge last entry) := by
  unfold canMerge; infer_instance

/-- One iteration of the grouping loop, with `grouped` carried in reverse
so that `grouped[grouped.length - 1]` is the head.  `last.end = entry.end`
becomes an update of the head; `grouped.push({ ...entry })` pushes a
shallow copy, which is the value itself. -/
def groupStep (acc : List LogEntry) (entry : LogEntry) : List LogEntry :=
  match acc with
  | [] => [entry]
  | last :: t =>
    if canMerge last entry then { last with stop := entry.stop } :: t
    else entry :: last :: t

/-- The grouping pass of `logGroupedErrors`: the `for (const entry of verseLog)`
loop that builds `grouped` (the printing loop that follows is not modelled). -/
def groupEntries (l : List LogEntry) : List LogEntry :=
  (l.foldl groupStep []).reverse

/-! ### Instrumented engine: recording every `lastVerse.endNumber` assignment

`PVStateG` is `PVState` plus a ghost field `groups`: one list per retained
verse (head = current `lastVerse`), holding, in order, every value that was
assigned to that verse's `endNumber` by a merge.  The computation is
otherwise identical to `pvStep` (see `erase_pvStepG`). -/

structure PVStateG where
  revResult : List Verse
  expectedNumber : Option Int
  fixed : Bool
  log : List LogEntry
  groups : List (List Int)
deriving Repr, DecidableEq

/-- Record an assignment to the current `lastVerse.endNumber`. -/
def pushAssign (gs : List (List Int)) (val : Int) : List (List Int) :=
  match gs with
  | [] => []
  | g :: t => (g ++ [val]) :: t

def gapStepG (context : String) (v : Verse) (expected : Int) (st : PVStateG) : PVStateG :=
  if v.number > expected && !st.revResult.isEmpty then
    { st with fixed := true,
              revResult := updLast st.revResult (v.number - 1),
              log := st.log ++ [⟨DefectType.missing, expected, v.number - 1, context⟩],
              groups := pushAssign st.groups (v.number - 1) }
  else st

def emptyStepG (context : String) (v : Verse) (st : PVStateG) : PVStateG :=
  if isEmptyText v.text then
    if st.revResult.isEmpty then st
    else
      { st with fixed := true,
                revResult := updLast st.revResult v.number,
                log := st.log ++ [⟨DefectType.empty, v.number, v.number, context⟩],
                groups := pushAssign st.groups v.number }
  else
    { st with revResult := v :: st.revResult, groups := [] :: st.groups }

def pvStepG (context : String) (st : PVStateG) (v : Verse) : PVStateG :=
  let expected := st.expectedNumber.getD v.number
  let st1 := gapStepG context v expected st
  let st2 := emptyStepG context v st1
  { st2 with expectedNumber := some (v.number + 1) }

def processVersesG (verses : List Verse) (context : String) : PVStateG :=
  verses.foldl (pvStepG context) ⟨[], none, false, [], []⟩

/-- Forget the ghost field. -/
def PVStateG.erase (st : PVStateG) : PVState :=
  ⟨st.revResult, st.expectedNumber, st.fixed, st.log⟩

/-! ### Heap model of the grouping loop

The JS grouping loop reads entries from `verseLog`, pushes a *shallow copy*
(`{ ...entry }`) of an entry onto `grouped`, and mutates `last.end` on an
object held in `grouped`.  To state that the input array's objects are
never mutated, the heap is made explicit: `cells` is the object store,
the input objects occupy addresses `0 .. n-1`, `grouped` holds addresses,
and the copy allocates a fresh cell at the end of the store. -/

structure GStore where
  cells : List LogEntry
deriving Repr, DecidableEq

def defaultEntry : LogEntry := ⟨DefectType.empty, 0, 0, ""⟩

/-- One iteration of the grouping loop on the explicit heap; `acc` is the
`grouped` array as addresses, newest first.  An absent `last`
(`grouped` empty) or a failed merge test allocates a fresh copy of the
entry at the end of the store; a successful merge writes `last.end`
through the retained address. -/
def groupStepS : GStore × List Nat → Nat → GStore × List Nat
  | (s, []), addr => (⟨s.cells ++ [s.cells.getD addr defaultEntry]⟩, [s.cells.length])
  | (s, lastAddr :: t), addr =>
    let entry := s.cells.getD addr defaultEntry
    let last := s.cells.getD lastAddr defaultEntry
    if canMerge last entry then
      (⟨s.cells.set lastAddr { last with stop := entry.stop }⟩, lastAddr :: t)
    else
      (⟨s.cells ++ [entry]⟩, s.cells.length :: lastAddr :: t)

/-- Run the grouping loop over a heap initially holding exactly the input
entries, iterating over their addresses in order. -/
def runGroupS (l : List LogEntry) : GStore × List Nat :=
  (List.range l.length).foldl groupStepS (⟨l⟩, [])

/-! ### Document wrapper handling (`readBibleFile` / `writeBibleFile`)

Only the post-parse shape logic is modelled; `fs` reads/writes and
`JSON.parse` failures stay outside.  `JValue` embeds the parsed JSON
value. -/

inductive JValue where
  | str (s : String)
  | num (n : Int)
  | jbool (b : Bool)
  | null
  | arr (xs : List JValue)
  | obj (fields : List (String × JValue))

/-- JS `typeof x === "object" && x !== null`: true for plain objects and
arrays, false for strings, numbers, booleans and `null`. -/
def isJsObjectLike : JValue → Bool
  | JValue.obj _ => true
  | JValue.arr _ => true
  | _ => false

inductive BibleWrapper where
  | fsb (id : String) (data : JValue)
  | json (data : JValue)

/-- Shape detection of `readBibleFile` after `JSON.parse`: a 2-element
array `[string, object]` is FSB; a non-array object is plain JSON;
anything else throws. -/
def readBibleFile (raw : JValue) : Except String BibleWrapper :=
  match raw with
  | JValue.arr [JValue.str id, d] =>
    if isJsObjectLike d then Except.ok (BibleWrapper.fsb id d)
    else Except.error "Unknown structure."
  | JValue.obj fields => Except.ok (BibleWrapper.json (JValue.obj fields))
  | _ => Except.error "Unknown structure."

/-- The function `writeBibleFile`: reconstruct the FSB array if necessary, else emit
the inner object bare. -/
def writeBibleFile : BibleWrapper → JValue
  | BibleWrapper.fsb id data => JValue.arr [JValue.str id, data]
  | BibleWrapper.json data => data

/-- The main loop works on `bibleWrapper.data` only (`const bible =
bibleWrapper.data`), leaving `type` and `id` untouched; `mapData f`
abstracts that processing as an arbitrary transformation of the inner
data. -/
def mapData (f : JValue → JValue) : BibleWrapper → BibleWrapper
  | BibleWrapper.fsb id data => BibleWrapper.fsb id (f data)
  | BibleWrapper.json data => BibleWrapper.json (f data)

/-! ## Theorems -/

/-! ### Branch lemmas for the engine -/

/-- When a gap is detected with a retained predecessor, the gap block fires. -/
theorem gapStep_fires (context : String) (v : Verse) (e : Int) (st : PVState)
    (r : Verse) (t : List Verse) (hr : st.revResult = r :: t) (hgt : e < v.number) :
    gapStep context v e st =
      { st with fixed := true,
                revResult := { r with endNumber := some (v.number - 1) } :: t,
                log := st.log ++ [⟨DefectType.missing, e, v.number - 1, context⟩] } := by
  unfold gapStep
  rw [hr]
  simp [updLast, hgt]

/-- When the incoming verse is not a gap closer, the gap block does nothing. -/
theorem gapStep_skips (context : String) (v : Verse) (e : Int) (st : PVState)
    (h : ¬ e < v.number) : gapStep context v e st = st := by
  unfold gapStep
  simp [h]

/-- When the incoming verse is empty and a predecessor is retained, the empty
block merges it. -/
theorem emptyStep_merges (context : String) (v : Verse) (st : PVState)
    (r : Verse) (t : List Verse) (hr : st.revResult = r :: t)
    (hv : isEmptyText v.text = true) :
    emptyStep context v st =
      { st with fixed := true,
                revResult := { r with endNumber := some v.number } :: t,
                log := st.log ++ [⟨DefectType.empty, v.number, v.number, context⟩] } := by
  unfold emptyStep
  rw [hr, hv]
  simp [updLast]

/-- A non-empty verse is pushed and becomes the new `lastVerse`. -/
theorem emptyStep_pushes (context : String) (v : Verse) (st : PVState)
    (hv : isEmptyText v.text = false) :
    emptyStep context v st = { st with revResult := v :: st.revResult } := by
  unfold emptyStep
  rw [hv]
  simp

/-- Claim C3: when `v.number > expectedNumber` and a retained verse exists, the gap
block sets the retained verse's `endNumber` to `v.number - 1`, marks the run
modified, and appends exactly one `missing` entry `[expectedNumber, v.number-1]`
with the current context (followed, within the same iteration, by an `empty`
entry only when `v` is itself empty); scenario B: `[{1,"A"},{2,"B"},{5,"C"}]`
yields verse 2 with `endNumber 4` and the single missing entry `[3,4]`. -/
theorem processVerses_gap_detection (st : PVState) (v : Verse) (context : String)
    (e : Int) (r : Verse) (t : List Verse)
    (he : st.expectedNumber = some e) (hr : st.revResult = r :: t)
    (hgt : e < v.number) :
    gapStep context v e st =
      { st with fixed := true,
                revResult := { r with endNumber := some (v.number - 1) } :: t,
                log := st.log ++ [⟨DefectType.missing, e, v.number - 1, context⟩] } ∧
    (pvStep context st v).fixed = true ∧
    (pvStep context st v).log = st.log ++ ⟨DefectType.missing, e, v.number - 1, context⟩ ::
      (if isEmptyText v.text then [⟨DefectType.empty, v.number, v.number, context⟩] else []) ∧
    processVerses [⟨1, some "A", none⟩, ⟨2, some "B", none⟩, ⟨5, some "C", none⟩] context =
      ⟨[⟨1, some "A", none⟩, ⟨2, some "B", some 4⟩, ⟨5, some "C", none⟩], true,
       [⟨DefectType.missing, 3, 4, context⟩]⟩ := by
  have hfire := gapStep_fires context v e st r t hr hgt
  refine ⟨hfire, ?_, ?_, rfl⟩
  · simp only [pvStep, he, Option.getD_some]
    rw [hfire]
    cases hv : isEmptyText v.text with
    | true =>
      rw [emptyStep_merges context v _ { r with endNumber := some (v.number - 1) } t rfl hv]
    | false =>
      rw [emptyStep_pushes context v _ hv]
  · simp only [pvStep, he, Option.getD_some]
    rw [hfire]
    cases hv : isEmptyText v.text with
    | true =>
      rw [emptyStep_merges context v _ { r with endNumber := some (v.number - 1) } t rfl hv]
      simp [hv]
    | false =>
      rw [emptyStep_pushes context v _ hv]
      simp [hv]

/-- Witness for `processVerses_gap_detection`: its scenario-B conjunct at a
concrete state. -/
theorem processVerses_gap_detection_witness :
    processVerses [⟨1, some "A", none⟩, ⟨2, some "B", none⟩, ⟨5, some "C", none⟩] "Genesis 1" =
      ⟨[⟨1, some "A", none⟩, ⟨2, some "B", some 4⟩, ⟨5, some "C", none⟩], true,
       [⟨DefectType.missing, 3, 4, "Genesis 1"⟩]⟩ :=
  (processVerses_gap_detection ⟨[⟨2, some "B", none⟩, ⟨1, some "A", none⟩], some 3, false, []⟩
    ⟨5, some "C", none⟩ "Genesis 1" 3 ⟨2, some "B", none⟩ [⟨1, some "A", none⟩]
    rfl rfl (by decide)).2.2.2

/-- Claim C4: an empty verse arriving while a predecessor is retained is absorbed:
the retained verse's `endNumber` becomes `v.number`, the run is marked
modified, exactly one `empty` entry `[v.number, v.number]` is appended, and
`v` is not retained; scenario A: `[{1,"In the beginning"},{2,""},{3,"And the
earth"}]` yields `[{1,.., endNumber 2},{3,..}]` with the single empty entry
`[2,2]`. -/
theorem processVerses_empty_absorb (st : PVState) (v : Verse) (context : String)
    (r : Verse) (t : List Verse) (hr : st.revResult = r :: t)
    (hv : isEmptyText v.text = true) :
    emptyStep context v st =
      { st with fixed := true,
                revResult := { r with endNumber := some v.number } :: t,
                log := st.log ++ [⟨DefectType.empty, v.number, v.number, context⟩] } ∧
    processVerses [⟨1, some "In the beginning", none⟩, ⟨2, some "", none⟩,
                   ⟨3, some "And the earth", none⟩] context =
      ⟨[⟨1, some "In the beginning", some 2⟩, ⟨3, some "And the earth", none⟩], true,
       [⟨DefectType.empty, 2, 2, context⟩]⟩ :=
  ⟨emptyStep_merges context v st r t hr hv, rfl⟩

/-- Witness for `processVerses_empty_absorb`: the scenario-A conjunct at a
concrete state. -/
theorem processVerses_empty_absorb_witness :
    processVerses [⟨1, some "In the beginning", none⟩, ⟨2, some "", none⟩,
                   ⟨3, some "And the earth", none⟩] "Genesis 1" =
      ⟨[⟨1, some "In the beginning", some 2⟩, ⟨3, some "And the earth", none⟩], true,
       [⟨DefectType.empty, 2, 2, "Genesis 1"⟩]⟩ :=
  (processVerses_empty_absorb ⟨[⟨1, some "In the beginning", none⟩], some 2, false, []⟩
    ⟨2, some "", none⟩ "Genesis 1" ⟨1, some "In the beginning", none⟩ []
    rfl (by decide)).2

/-- Claim C10: a verse that both closes a gap (`v.number > expectedNumber`, with a
retained predecessor) and is itself empty yields exactly two appended entries,
the `missing` entry `[expectedNumber, v.number-1]` immediately before the
`empty` entry `[v.number, v.number]`; the run is marked modified, the retained
verse ends with `endNumber = v.number`, and `v` is not retained. -/
theorem processVerses_double_defect (st : PVState) (v : Verse) (context : String)
    (e : Int) (r : Verse) (t : List Verse)
    (he : st.expectedNumber = some e) (hr : st.revResult = r :: t)
    (hgt : e < v.number) (hv : isEmptyText v.text = true) :
    (pvStep context st v).log =
      st.log ++ [⟨DefectType.missing, e, v.number - 1, context⟩,
                 ⟨DefectType.empty, v.number, v.number, context⟩] ∧
    (pvStep context st v).fixed = true ∧
    (pvStep context st v).revResult = { r with endNumber := some v.number } :: t := by
  have hfire := gapStep_fires context v e st r t hr hgt
  have hstep : pvStep context st v =
      { revResult := { r with endNumber := some v.number } :: t,
        expectedNumber := some (v.number + 1), fixed := true,
        log := st.log ++ [⟨DefectType.missing, e, v.number - 1, context⟩,
                          ⟨DefectType.empty, v.number, v.number, context⟩] } := by
    simp only [pvStep, he, Option.getD_some]
    rw [hfire, emptyStep_merges context v _ { r with endNumber := some (v.number - 1) } t rfl hv]
    simp
  rw [hstep]
  exact ⟨rfl, rfl, rfl⟩

/-- Witness for `processVerses_double_defect`: verse 4 is empty and arrives
after verse 2, so it closes the gap `[3,3]` and is absorbed as `[4,4]`. -/
theorem processVerses_double_defect_witness :
    (pvStep "Exodus 7" ⟨[⟨2, some "B", none⟩], some 3, false, []⟩ ⟨4, some " ", none⟩).log =
      [⟨DefectType.missing, 3, 3, "Exodus 7"⟩, ⟨DefectType.empty, 4, 4, "Exodus 7"⟩] ∧
    (pvStep "Exodus 7" ⟨[⟨2, some "B", none⟩], some 3, false, []⟩ ⟨4, some " ", none⟩).fixed = true ∧
    (pvStep "Exodus 7" ⟨[⟨2, some "B", none⟩], some 3, false, []⟩ ⟨4, some " ", none⟩).revResult =
      [⟨2, some "B", some 4⟩] :=
  processVerses_double_defect ⟨[⟨2, some "B", none⟩], some 3, false, []⟩ ⟨4, some " ", none⟩
    "Exodus 7" 3 ⟨2, some "B", none⟩ [] rfl rfl (by decide) (by decide)

/-- From the initial state (nothing retained yet), one iteration is: set the
expectation, drop the verse if empty, retain it otherwise; no defect entry
and no modification flag. -/
theorem pvStep_initial (c : String) (e : Option Int) (f : Bool) (l : List LogEntry) (v : Verse) :
    pvStep c ⟨[], e, f, l⟩ v =
      ⟨if isEmptyText v.text then [] else [v], some (v.number + 1), f, l⟩ := by
  cases hv : isEmptyText v.text <;> simp [pvStep, gapStep, emptyStep, hv]

/-- While nothing has been retained, the initial `expectedNumber` does not
influence the rest of the run: after the first verse both runs reach the
same state. -/
theorem foldl_expected_irrelevant (c : String) (v : Verse) (vs : List Verse)
    (e₁ e₂ : Option Int) (f : Bool) (l : List LogEntry) :
    List.foldl (pvStep c) (⟨[], e₁, f, l⟩ : PVState) (v :: vs) =
      List.foldl (pvStep c) (⟨[], e₂, f, l⟩ : PVState) (v :: vs) := by
  simp only [List.foldl_cons, pvStep_initial]

/-- Claim C5: a leading defect is silently ignored.  First, an empty first verse is
dropped and the whole run behaves as if it were absent (in particular no
defect entry is recorded for it); second, processing any first verse from the
initial state — including one whose number exceeds 1, i.e. a conceptual
leading gap — records no defect entry and does not mark the run modified,
because no verse has been retained yet. -/
theorem processVerses_leading_defects (v : Verse) (rest : List Verse) (context : String) :
    (isEmptyText v.text = true → processVerses (v :: rest) context = processVerses rest context) ∧
    (pvStep context ⟨[], none, false, []⟩ v).log = [] ∧
    (pvStep context ⟨[], none, false, []⟩ v).fixed = false := by
  refine ⟨?_, ?_, ?_⟩
  · intro h
    unfold processVerses
    simp only [List.foldl_cons, pvStep_initial, h, if_true]
    cases rest with
    | nil => rfl
    | cons w ws => rw [foldl_expected_irrelevant context w ws (some (v.number + 1)) none]
  · rw [pvStep_initial]
  · rw [pvStep_initial]

/-- Witness for `processVerses_leading_defects`: an empty first verse
numbered 1 followed by verse 2. -/
theorem processVerses_leading_defects_witness :
    processVerses [⟨1, some "", none⟩, ⟨2, some "A", none⟩] "c" =
      processVerses [⟨2, some "A", none⟩] "c" ∧
    (pvStep "c" ⟨[], none, false, []⟩ ⟨1, some "", none⟩).log = [] ∧
    (pvStep "c" ⟨[], none, false, []⟩ ⟨1, some "", none⟩).fixed = false :=
  ⟨(processVerses_leading_defects ⟨1, some "", none⟩ [⟨2, some "A", none⟩] "c").1 (by decide),
   (processVerses_leading_defects ⟨1, some "", none⟩ [⟨2, some "A", none⟩] "c").2⟩

/-- The gap block only ever appends to the log. -/
theorem gapStep_log (c : String) (v : Verse) (e : Int) (st : PVState) :
    ∃ L, (gapStep c v e st).log = st.log ++ L := by
  unfold gapStep
  split
  · exact ⟨_, rfl⟩
  · exact ⟨[], (List.append_nil _).symm⟩

/-- The empty-text block only ever appends to the log. -/
theorem emptyStep_log (c : String) (v : Verse) (st : PVState) :
    ∃ L, (emptyStep c v st).log = st.log ++ L := by
  unfold emptyStep
  split
  · split
    · exact ⟨[], (List.append_nil _).symm⟩
    · exact ⟨_, rfl⟩
  · exact ⟨[], (List.append_nil _).symm⟩

/-- One engine iteration only ever appends to the log. -/
theorem pvStep_log (c : String) (st : PVState) (v : Verse) :
    ∃ L, (pvStep c st v).log = st.log ++ L := by
  obtain ⟨L₁, h₁⟩ := gapStep_log c v (st.expectedNumber.getD v.number) st
  obtain ⟨L₂, h₂⟩ := emptyStep_log c v (gapStep c v (st.expectedNumber.getD v.number) st)
  refine ⟨L₁ ++ L₂, ?_⟩
  show (emptyStep c v (gapStep c v (st.expectedNumber.getD v.number) st)).log = _
  rw [h₂, h₁, List.append_assoc]

/-- The whole run only ever appends to the log. -/
theorem foldl_log (c : String) (vs : List Verse) (st : PVState) :
    ∃ L, (List.foldl (pvStep c) st vs).log = st.log ++ L := by
  induction vs generalizing st with
  | nil => exact ⟨[], (List.append_nil _).symm⟩
  | cons v vs ih =>
    obtain ⟨L₁, h₁⟩ := pvStep_log c st v
    obtain ⟨L₂, h₂⟩ := ih (pvStep c st v)
    refine ⟨L₁ ++ L₂, ?_⟩
    rw [List.foldl_cons, h₂, h₁, List.append_assoc]

/-- An iteration that appends nothing to the log leaves `fixed` alone and
either drops the verse (empty) or retains it untouched (non-empty). -/
theorem pvStep_log_eq (c : String) (st : PVState) (v : Verse)
    (h : (pvStep c st v).log = st.log) :
    (pvStep c st v).fixed = st.fixed ∧
    (pvStep c st v).revResult =
      (if isEmptyText v.text then st.revResult else v :: st.revResult) := by
  have hg : gapStep c v (st.expectedNumber.getD v.number) st = st := by
    unfold gapStep
    split
    · exfalso
      obtain ⟨L₂, h₂⟩ := emptyStep_log c v
        { st with fixed := true,
                  revResult := updLast st.revResult (v.number - 1),
                  log := st.log ++ [⟨DefectType.missing, st.expectedNumber.getD v.number,
                                     v.number - 1, c⟩] }
      have hlog : (pvStep c st v).log =
          (st.log ++ [⟨DefectType.missing, st.expectedNumber.getD v.number,
                       v.number - 1, c⟩]) ++ L₂ := by
        show (emptyStep c v (gapStep c v (st.expectedNumber.getD v.number) st)).log = _
        unfold gapStep
        split
        · exact h₂
        · next hcond hncond => exact absurd hcond hncond
      rw [h] at hlog
      have := congrArg List.length hlog
      simp at this
    · rfl
  have hpv : pvStep c st v = { emptyStep c v st with expectedNumber := some (v.number + 1) } := by
    show { emptyStep c v (gapStep c v (st.expectedNumber.getD v.number) st) with
             expectedNumber := some (v.number + 1) } = _
    rw [hg]
  cases hv : isEmptyText v.text with
  | true =>
    have he : emptyStep c v st = st := by
      unfold emptyStep
      rw [hv]
      simp only [if_true]
      split
      · rfl
      · exfalso
        have hlog := h
        rw [hpv] at hlog
        unfold emptyStep at hlog
        rw [hv] at hlog
        simp only [if_true] at hlog
        split at hlog
        · next hemp => next hne => exact hne hemp
        · simp at hlog
    rw [hpv, he]
    simp
  | false =>
    have he : emptyStep c v st = { st with revResult := v :: st.revResult } := by
      unfold emptyStep
      rw [hv]
      simp
    rw [hpv, he]
    simp

/-- A run that appends nothing to the log keeps `fixed` and retains exactly
the non-empty verses, untouched. -/
theorem foldl_log_nil (c : String) (vs : List Verse) (st : PVState)
    (h : (List.foldl (pvStep c) st vs).log = st.log) :
    (List.foldl (pvStep c) st vs).fixed = st.fixed ∧
    (List.foldl (pvStep c) st vs).revResult =
      (vs.filter fun v => !(isEmptyText v.text)).reverse ++ st.revResult := by
  induction vs generalizing st with
  | nil => exact ⟨rfl, by simp⟩
  | cons v vs ih =>
    obtain ⟨L₁, h₁⟩ := pvStep_log c st v
    obtain ⟨L₂, h₂⟩ := foldl_log c vs (pvStep c st v)
    rw [List.foldl_cons] at h
    have hlen := congrArg List.length (h₂.symm.trans (h.trans rfl) : _)
    rw [h₁, List.append_assoc] at hlen
    simp only [List.length_append] at hlen
    have hL₁ : L₁ = [] := List.length_eq_zero.mp (by omega)
    have hL₂ : L₂ = [] := List.length_eq_zero.mp (by omega)
    have hstep : (pvStep c st v).log = st.log := by rw [h₁, hL₁, List.append_nil]
    have hih := ih (pvStep c st v) (by rw [h₂, hL₂, List.append_nil])
    have hchar := pvStep_log_eq c st v hstep
    rw [List.foldl_cons]
    refine ⟨hih.1.trans hchar.1, ?_⟩
    rw [hih.2, hchar.2]
    cases hv : isEmptyText v.text with
    | true => simp [List.filter_cons, hv]
    | false => simp [List.filter_cons, hv]

/-- Claim C1 counterexample: a chapter whose only verse is empty records zero
defect entries, yet the returned verse sequence is empty rather than equal
to the input (the leading empty verse is silently dropped). -/
theorem processVerses_zero_defects_cex :
    (processVerses [⟨1, some "", none⟩] "c").log = [] ∧
    (processVerses [⟨1, some "", none⟩] "c").fixed = false ∧
    (processVerses [⟨1, some "", none⟩] "c").verses ≠ [⟨1, some "", none⟩] := by
  decide

/-- Claim C1, amended: a run that records zero defect entries returns
`fixed = false`, and its output is the input with the empty-text verses
filtered out — equal to the input itself whenever no input verse is empty,
but a leading run of empty verses is dropped without any defect entry. -/
theorem processVerses_zero_defects (verses : List Verse) (context : String)
    (h : (processVerses verses context).log = []) :
    (processVerses verses context).fixed = false ∧
    (processVerses verses context).verses =
      verses.filter fun v => !(isEmptyText v.text) := by
  have hmain := foldl_log_nil context verses ⟨[], none, false, []⟩ h
  unfold processVerses
  refine ⟨hmain.1, ?_⟩
  show (List.foldl (pvStep context) ⟨[], none, false, []⟩ verses).revResult.reverse = _
  rw [hmain.2]
  simp

/-- Witness for `processVerses_zero_defects`: a clean two-verse chapter. -/
theorem processVerses_zero_defects_witness :
    (processVerses [⟨1, some "A", none⟩, ⟨2, some "B", none⟩] "c").log = [] ∧
    (processVerses [⟨1, some "A", none⟩, ⟨2, some "B", none⟩] "c").fixed = false ∧
    (processVerses [⟨1, some "A", none⟩, ⟨2, some "B", none⟩] "c").verses =
      List.filter (fun v => !(isEmptyText v.text)) [⟨1, some "A", none⟩, ⟨2, some "B", none⟩] :=
  ⟨by decide,
   (processVerses_zero_defects [⟨1, some "A", none⟩, ⟨2, some "B", none⟩] "c" (by decide)).1,
   (processVerses_zero_defects [⟨1, some "A", none⟩, ⟨2, some "B", none⟩] "c" (by decide)).2⟩

/-- Mutating `endNumber` on the most recently retained verse never changes
any retained verse's text. -/
theorem updLast_text (l : List Verse) (n : Int) (u : Verse) (hu : u ∈ updLast l n) :
    ∃ w ∈ l, u.text = w.text := by
  cases l with
  | nil => cases hu
  | cons r t =>
    rcases List.mem_cons.mp hu with h | h
    · exact ⟨r, List.mem_cons_self r t, by rw [h]⟩
    · exact ⟨u, List.mem_cons_of_mem r h, rfl⟩

theorem gapStep_mem_text (c : String) (v : Verse) (e : Int) (st : PVState)
    (u : Verse) (hu : u ∈ (gapStep c v e st).revResult) :
    ∃ w ∈ st.revResult, u.text = w.text := by
  unfold gapStep at hu
  split at hu
  · exact updLast_text _ _ _ hu
  · exact ⟨u, hu, rfl⟩

theorem emptyStep_mem_text (c : String) (v : Verse) (st : PVState)
    (u : Verse) (hu : u ∈ (emptyStep c v st).revResult) :
    (∃ w ∈ st.revResult, u.text = w.text) ∨ (u = v ∧ isEmptyText v.text = false) := by
  unfold emptyStep at hu
  cases hv : isEmptyText v.text with
  | true =>
    rw [hv] at hu
    simp only [if_true] at hu
    split at hu
    · exact Or.inl ⟨u, hu, rfl⟩
    · exact Or.inl (updLast_text _ _ _ hu)
  | false =>
    rw [hv] at hu
    simp only [Bool.false_eq_true, if_false] at hu
    rcases List.mem_cons.mp hu with h | h
    · exact Or.inr ⟨h, rfl⟩
    · exact Or.inl ⟨u, h, rfl⟩

theorem pvStep_mem_text (c : String) (st : PVState) (v : Verse)
    (u : Verse) (hu : u ∈ (pvStep c st v).revResult) :
    (∃ w ∈ st.revResult, u.text = w.text) ∨ (u = v ∧ isEmptyText v.text = false) := by
  have hu' : u ∈ (emptyStep c v (gapStep c v (st.expectedNumber.getD v.number) st)).revResult := hu
  rcases emptyStep_mem_text c v _ u hu' with ⟨w, hw, hwt⟩ | h
  · obtain ⟨w', hw', hwt'⟩ := gapStep_mem_text c v _ st w hw
    exact Or.inl ⟨w', hw', hwt.trans hwt'⟩
  · exact Or.inr h

/-- Along the whole run, every retained verse has non-empty text. -/
theorem foldl_nonempty (c : String) (vs : List Verse) (st : PVState)
    (hst : ∀ u ∈ st.revResult, isEmptyText u.text = false) :
    ∀ u ∈ (List.foldl (pvStep c) st vs).revResult, isEmptyText u.text = false := by
  induction vs generalizing st with
  | nil => exact hst
  | cons v vs ih =>
    rw [List.foldl_cons]
    refine ih (pvStep c st v) ?_
    intro u hu
    rcases pvStep_mem_text c st v u hu with ⟨w, hw, hwt⟩ | ⟨huv, hv⟩
    · rw [hwt]; exact hst w hw
    · rw [huv]; exact hv

/-- Claim C8: every verse in the output of `processVerses` has text that is
present and non-whitespace after trimming — no empty-text verse, a leading
one included, ever appears in the output. -/
theorem processVerses_output_nonempty (verses : List Verse) (context : String)
    (v : Verse) (hv : v ∈ (processVerses verses context).verses) :
    isEmptyText v.text = false := by
  have hv' : v ∈ (List.foldl (pvStep context) ⟨[], none, false, []⟩ verses).revResult := by
    have : v ∈ (List.foldl (pvStep context) ⟨[], none, false, []⟩ verses).revResult.reverse := hv
    exact List.mem_reverse.mp this
  exact foldl_nonempty context verses ⟨[], none, false, []⟩ (by intro u hu; cases hu) v hv'

/-- Witness for `processVerses_output_nonempty`: verse 1 of a run that also
drops an empty verse. -/
theorem processVerses_output_nonempty_witness :
    isEmptyText (Verse.mk 1 (some "A") (some 2)).text = false :=
  processVerses_output_nonempty [⟨1, some "A", none⟩, ⟨2, some "", none⟩] "c"
    ⟨1, some "A", some 2⟩ (by decide)

/-- Folding the grouping step over entries none of which can merge into
their predecessor just reverses them onto the accumulator. -/
theorem foldl_no_merge (l : List LogEntry) :
    ∀ acc : List LogEntry,
    List.Chain' (fun a b => ¬ canMerge a b) l →
    (∀ a, acc.head? = some a → ∀ b, l.head? = some b → ¬ canMerge a b) →
    List.foldl groupStep acc l = l.reverse ++ acc := by
  induction l with
  | nil => intro acc _ _; simp
  | cons b l' ih =>
    intro acc hchain hacc
    obtain ⟨hb, hchain'⟩ := List.chain'_cons'.mp hchain
    rw [List.foldl_cons]
    cases acc with
    | nil =>
      rw [show groupStep [] b = [b] from rfl]
      rw [ih [b] hchain' ?_]
      · simp
      · intro a ha c hc
        simp only [List.head?_cons, Option.some.injEq] at ha
        subst ha
        exact hb c hc
    | cons a t =>
      have hnm : ¬ canMerge a b := hacc a rfl b rfl
      rw [show groupStep (a :: t) b = b :: a :: t by unfold groupStep; simp [hnm]]
      rw [ih (b :: a :: t) hchain' ?_]
      · simp
      · intro x hx c hc
        simp only [List.head?_cons, Option.some.injEq] at hx
        subst hx
        exact hb c hc

/-- Invariant of the grouping loop: in the accumulator (newest first), no
entry can merge into the one that precedes it chronologically.  Extending
the newest entry's range preserves this, because mergeability looks only at
the older entry's `stop` and the newer entry's `type`, `context`, `start`. -/
theorem foldl_groupStep_chain (l : List LogEntry) :
    ∀ acc : List LogEntry,
    List.Chain' (fun x y => ¬ canMerge y x) acc →
    List.Chain' (fun x y => ¬ canMerge y x) (List.foldl groupStep acc l) := by
  induction l with
  | nil => intro acc h; exact h
  | cons b l' ih =>
    intro acc h
    rw [List.foldl_cons]
    refine ih _ ?_
    cases acc with
    | nil => exact List.chain'_singleton b
    | cons a t =>
      by_cases hm : canMerge a b
      · rw [show groupStep (a :: t) b = { a with stop := b.stop } :: t by
          unfold groupStep; simp [hm]]
        obtain ⟨ha, ht⟩ := List.chain'_cons'.mp h
        exact List.chain'_cons'.mpr ⟨fun y hy => ha y hy, ht⟩
      · rw [show groupStep (a :: t) b = b :: a :: t by unfold groupStep; simp [hm]]
        refine List.chain'_cons'.mpr ⟨?_, h⟩
        intro y hy
        simp only [List.head?_cons, Option.mem_def, Option.some.injEq] at hy
        subst hy
        exact hm

/-- The output of the grouping pass has no adjacent mergeable pair. -/
theorem groupEntries_chain (l : List LogEntry) :
    List.Chain' (fun a b => ¬ canMerge a b) (groupEntries l) := by
  unfold groupEntries
  rw [List.chain'_reverse]
  exact foldl_groupStep_chain l [] List.chain'_nil

/-- Grouping a list with no adjacent mergeable pair changes nothing. -/
theorem groupEntries_of_chain (l : List LogEntry)
    (h : List.Chain' (fun a b => ¬ canMerge a b) l) : groupEntries l = l := by
  unfold groupEntries
  rw [foldl_no_merge l [] h (by intro a ha; simp at ha)]
  simp

/-- Claim C6: the grouping pass is idempotent — regrouping already-grouped output
performs no further merging, for every defect-entry sequence. -/
theorem groupEntries_idempotent (l : List LogEntry) :
    groupEntries (groupEntries l) = groupEntries l :=
  groupEntries_of_chain _ (groupEntries_chain l)

/-- Writing at an address at or past `n` does not change the first `n`
cells. -/
theorem take_set_of_le {α : Type} (l : List α) (a : Nat) (x : α) (n : Nat) (h : n ≤ a) :
    (l.set a x).take n = l.take n := by
  induction l generalizing a n with
  | nil => simp
  | cons y t ih =>
    cases n with
    | zero => simp
    | succ n =>
      cases a with
      | zero => omega
      | succ a =>
        simp only [List.set_cons_succ, List.take_succ_cons]
        rw [ih a n (Nat.le_of_succ_le_succ h)]

/-- Heap invariant of the grouping loop: the input cells `0 .. n-1` are
never written, every address held by `grouped` was freshly allocated
(at or past `n`), and the store only grows. -/
theorem foldl_groupStepS_inv (n : Nat) (addrs : List Nat) :
    ∀ (s : GStore) (acc : List Nat),
    n ≤ s.cells.length → (∀ a ∈ acc, n ≤ a) →
    (List.foldl groupStepS (s, acc) addrs).1.cells.take n = s.cells.take n ∧
    n ≤ (List.foldl groupStepS (s, acc) addrs).1.cells.length ∧
    (∀ a ∈ (List.foldl groupStepS (s, acc) addrs).2, n ≤ a) := by
  induction addrs with
  | nil => intro s acc hlen hacc; exact ⟨rfl, hlen, hacc⟩
  | cons addr addrs ih =>
    intro s acc hlen hacc
    rw [List.foldl_cons]
    have hstep : (groupStepS (s, acc) addr).1.cells.take n = s.cells.take n ∧
        n ≤ (groupStepS (s, acc) addr).1.cells.length ∧
        (∀ a ∈ (groupStepS (s, acc) addr).2, n ≤ a) := by
      cases acc with
      | nil =>
        refine ⟨?_, ?_, ?_⟩
        · show (s.cells ++ [s.cells.getD addr defaultEntry]).take n = s.cells.take n
          exact List.take_append_of_le_length hlen
        · show n ≤ (s.cells ++ [s.cells.getD addr defaultEntry]).length
          rw [List.length_append]
          omega
        · show ∀ a ∈ [s.cells.length], n ≤ a
          intro a ha
          rw [List.mem_singleton] at ha
          subst ha
          exact hlen
      | cons lastAddr t =>
        simp only [groupStepS]
        by_cases hm : canMerge (s.cells.getD lastAddr defaultEntry) (s.cells.getD addr defaultEntry)
        · rw [if_pos hm]
          refine ⟨?_, ?_, hacc⟩
          · exact take_set_of_le _ _ _ _ (hacc lastAddr (List.mem_cons_self _ _))
          · rw [List.length_set]
            exact hlen
        · rw [if_neg hm]
          refine ⟨List.take_append_of_le_length hlen, ?_, ?_⟩
          · rw [List.length_append]
            omega
          · intro a ha
            rcases List.mem_cons.mp ha with h | h
            · subst h
              exact hlen
            · exact hacc a h
    obtain ⟨h1, h2, h3⟩ :=
      ih (groupStepS (s, acc) addr).1 (groupStepS (s, acc) addr).2 hstep.2.1 hstep.2.2
    rw [show ((groupStepS (s, acc) addr).1, (groupStepS (s, acc) addr).2) =
        groupStepS (s, acc) addr from rfl] at h1 h2 h3
    exact ⟨h1.trans hstep.1, h2, h3⟩

/-- Claim C9: the grouping loop never mutates its input.  Running
`logGroupedErrors` on a heap holding exactly the input entries leaves every
input entry — all of its fields — unchanged: a new grouped entry is a
shallow copy allocated past the input, and range extension writes only to
such copies. -/
theorem groupEntries_no_mutation (l : List LogEntry) :
    (runGroupS l).1.cells.take l.length = l := by
  unfold runGroupS
  have h := foldl_groupStepS_inv l.length (List.range l.length) ⟨l⟩ []
    (Nat.le_refl _) (by intro a ha; cases ha)
  rw [h.1]
  exact List.take_length l

/-- Claim C7: a 2-element wrapper document `[identifier, innerObject]` is read as
FSB, processing (`mapData f`) touches only the inner object, and the output
is again a 2-element array whose first element is the original identifier;
an unwrapped object document is read as plain JSON and written back with no
wrapper added. -/
theorem wrapper_roundtrip (id : String) (d : JValue) (f : JValue → JValue)
    (h : isJsObjectLike d = true) :
    readBibleFile (JValue.arr [JValue.str id, d]) = Except.ok (BibleWrapper.fsb id d) ∧
    writeBibleFile (mapData f (BibleWrapper.fsb id d)) = JValue.arr [JValue.str id, f d] ∧
    (∀ fields, readBibleFile (JValue.obj fields) =
      Except.ok (BibleWrapper.json (JValue.obj fields))) ∧
    (∀ fields, writeBibleFile (mapData f (BibleWrapper.json (JValue.obj fields))) =
      f (JValue.obj fields)) := by
  refine ⟨?_, rfl, fun fields => rfl, fun fields => rfl⟩
  simp [readBibleFile, h]

/-- Witness for `wrapper_roundtrip`: the FSB document `["NIV", {}]` with the
identity transformation. -/
theorem wrapper_roundtrip_witness :
    readBibleFile (JValue.arr [JValue.str "NIV", JValue.obj []]) =
      Except.ok (BibleWrapper.fsb "NIV" (JValue.obj [])) ∧
    writeBibleFile (mapData (fun x => x) (BibleWrapper.fsb "NIV" (JValue.obj []))) =
      JValue.arr [JValue.str "NIV", JValue.obj []] ∧
    readBibleFile (JValue.obj []) = Except.ok (BibleWrapper.json (JValue.obj [])) ∧
    writeBibleFile (mapData (fun x => x) (BibleWrapper.json (JValue.obj []))) =
      JValue.obj [] := by
  have h := wrapper_roundtrip "NIV" (JValue.obj []) (fun x => x) rfl
  exact ⟨h.1, h.2.1, h.2.2.1 [], h.2.2.2 []⟩

/-! ### Monotonicity of `endNumber` assignments (instrumented engine) -/

/-- Erasing the ghost field commutes with one instrumented iteration. -/
theorem erase_pvStepG (c : String) (st : PVStateG) (v : Verse) :
    (pvStepG c st v).erase = pvStep c st.erase v := by
  cases st with
  | mk rev exp fx lg gs =>
    cases rev with
    | nil =>
      cases hv : isEmptyText v.text <;>
        simp [pvStepG, pvStep, gapStepG, gapStep, emptyStepG, emptyStep, PVStateG.erase, hv]
    | cons r t =>
      by_cases h1 : v.number > exp.getD v.number <;>
        cases hv : isEmptyText v.text <;>
          simp [pvStepG, pvStep, gapStepG, gapStep, emptyStepG, emptyStep, PVStateG.erase,
                updLast, h1, hv]

/-- The instrumented run erases to the plain run: `processVerses` is the
erasure of `processVersesG`. -/
theorem erase_processVersesG (verses : List Verse) (c : String) :
    processVerses verses c =
      ⟨(processVersesG verses c).revResult.reverse, (processVersesG verses c).fixed,
       (processVersesG verses c).log⟩ := by
  have key : ∀ (vs : List Verse) (st : PVStateG),
      (List.foldl (pvStepG c) st vs).erase = List.foldl (pvStep c) st.erase vs := by
    intro vs
    induction vs with
    | nil => intro st; rfl
    | cons v vs ih =>
      intro st
      rw [List.foldl_cons, List.foldl_cons, ih (pvStepG c st v), erase_pvStepG]
  have h := key verses ⟨[], none, false, [], []⟩
  unfold processVerses processVersesG
  rw [show List.foldl (pvStep c) ⟨[], none, false, []⟩ verses =
      (List.foldl (pvStepG c) ⟨[], none, false, [], []⟩ verses).erase from h.symm]
  rfl

theorem gapStepG_pos (c : String) (v : Verse) (e : Int) (st : PVStateG)
    (r : Verse) (t : List Verse) (hr : st.revResult = r :: t) (h : e < v.number) :
    gapStepG c v e st =
      { st with fixed := true,
                revResult := updLast st.revResult (v.number - 1),
                log := st.log ++ [⟨DefectType.missing, e, v.number - 1, c⟩],
                groups := pushAssign st.groups (v.number - 1) } := by
  unfold gapStepG
  rw [hr]
  simp [h]

theorem gapStepG_neg (c : String) (v : Verse) (e : Int) (st : PVStateG)
    (h : ¬ e < v.number) : gapStepG c v e st = st := by
  unfold gapStepG
  simp [h]

theorem gapStepG_nil (c : String) (v : Verse) (e : Int) (st : PVStateG)
    (h : st.revResult = []) : gapStepG c v e st = st := by
  unfold gapStepG
  rw [h]
  simp

theorem emptyStepG_merge (c : String) (v : Verse) (st : PVStateG)
    (r : Verse) (t : List Verse) (hr : st.revResult = r :: t)
    (hv : isEmptyText v.text = true) :
    emptyStepG c v st =
      { st with fixed := true,
                revResult := updLast st.revResult v.number,
                log := st.log ++ [⟨DefectType.empty, v.number, v.number, c⟩],
                groups := pushAssign st.groups v.number } := by
  unfold emptyStepG
  rw [hr, hv]
  simp

theorem emptyStepG_nil (c : String) (v : Verse) (st : PVStateG)
    (hr : st.revResult = []) (hv : isEmptyText v.text = true) :
    emptyStepG c v st = st := by
  unfold emptyStepG
  rw [hr, hv]
  simp

theorem emptyStepG_push (c : String) (v : Verse) (st : PVStateG)
    (hv : isEmptyText v.text = false) :
    emptyStepG c v st = { st with revResult := v :: st.revResult,
                                  groups := [] :: st.groups } := by
  unfold emptyStepG
  rw [hv]
  simp

/-- Appending a strict upper bound to a strictly increasing list keeps it
strictly increasing. -/
theorem chain_append_lt (g : List Int) (val : Int)
    (hg : List.Chain' (fun a b : Int => a < b) g) (hb : ∀ x ∈ g, x < val) :
    List.Chain' (fun a b : Int => a < b) (g ++ [val]) := by
  rw [List.chain'_append]
  refine ⟨hg, List.chain'_singleton val, ?_⟩
  intro x hx y hy
  simp only [List.head?_cons, Option.mem_def, Option.some.injEq] at hy
  subst hy
  exact hb x (List.mem_of_mem_getLast? hx)

/-- Recording an assignment strictly above everything already recorded for
the current retained verse keeps all groups strictly increasing, and bounds
the head group by the recorded value. -/
theorem pushAssign_chains (gs : List (List Int)) (val : Int)
    (hinv : ∀ g ∈ gs, List.Chain' (fun a b : Int => a < b) g)
    (hhead : ∀ g, gs.head? = some g → ∀ x ∈ g, x < val) :
    (∀ g ∈ pushAssign gs val, List.Chain' (fun a b : Int => a < b) g) ∧
    (∀ g, (pushAssign gs val).head? = some g → ∀ x ∈ g, x ≤ val) := by
  cases gs with
  | nil =>
    refine ⟨hinv, ?_⟩
    intro g hg
    simp [pushAssign] at hg
  | cons g0 t =>
    constructor
    · intro g hg
      rcases List.mem_cons.mp hg with h | h
      · subst h
        exact chain_append_lt g0 val (hinv g0 (List.mem_cons_self _ _)) (hhead g0 rfl)
      · exact hinv g (List.mem_cons_of_mem _ h)
    · intro g hg x hx
      simp only [pushAssign, List.head?_cons, Option.some.injEq] at hg
      subst hg
      rcases List.mem_append.mp hx with h | h
      · exact le_of_lt (hhead g0 rfl x h)
      · rw [List.mem_singleton] at h
        exact h.le

/-- One instrumented iteration preserves: all recorded assignment sequences
are strictly increasing, and everything recorded against the current
retained verse stays below the next expectation `v.number + 1` — provided
the verse numbers seen so far stay below the incoming one. -/
theorem pvStepG_groups (c : String) (st : PVStateG) (v : Verse)
    (hb : ∀ e, st.expectedNumber = some e → e ≤ v.number ∧
        (∀ g, st.groups.head? = some g → ∀ x ∈ g, x < e))
    (hnone : st.expectedNumber = none → st.groups = [])
    (hinv : ∀ g ∈ st.groups, List.Chain' (fun a b : Int => a < b) g) :
    (∀ g ∈ (pvStepG c st v).groups, List.Chain' (fun a b : Int => a < b) g) ∧
    (∀ g, (pvStepG c st v).groups.head? = some g → ∀ x ∈ g, x < v.number + 1) := by
  cases hexp : st.expectedNumber with
  | some e =>
    have he := (hb e hexp).1
    have hhead := (hb e hexp).2
    have hgroups : (pvStepG c st v).groups = (emptyStepG c v (gapStepG c v e st)).groups := by
      show (emptyStepG c v (gapStepG c v (st.expectedNumber.getD v.number) st)).groups = _
      rw [hexp]
      simp only [Option.getD_some]
    rw [hgroups]
    by_cases hgap : e < v.number
    · cases hrev : st.revResult with
      | nil =>
        rw [gapStepG_nil c v e st hrev]
        cases hv : isEmptyText v.text with
        | true =>
          rw [emptyStepG_nil c v st hrev hv]
          exact ⟨hinv, fun g hg x hx => by have := hhead g hg x hx; omega⟩
        | false =>
          rw [emptyStepG_push c v st hv]
          refine ⟨?_, ?_⟩
          · intro g hg
            rcases List.mem_cons.mp hg with h | h
            · subst h; exact List.chain'_nil
            · exact hinv g h
          · intro g hg x hx
            simp only [List.head?_cons, Option.some.injEq] at hg
            subst hg
            simp at hx
      | cons r t =>
        rw [gapStepG_pos c v e st r t hrev hgap]
        have pc := pushAssign_chains st.groups (v.number - 1) hinv
          (fun g hg x hx => by have := hhead g hg x hx; omega)
        cases hv : isEmptyText v.text with
        | true =>
          rw [emptyStepG_merge c v _ { r with endNumber := some (v.number - 1) } t
            (by show updLast st.revResult (v.number - 1) =
                  { r with endNumber := some (v.number - 1) } :: t
                simp [hrev, updLast]) hv]
          have pc2 := pushAssign_chains (pushAssign st.groups (v.number - 1)) v.number pc.1
            (fun g hg x hx => by have := pc.2 g hg x hx; omega)
          exact ⟨pc2.1, fun g hg x hx => by have := pc2.2 g hg x hx; omega⟩
        | false =>
          rw [emptyStepG_push c v _ hv]
          refine ⟨?_, ?_⟩
          · intro g hg
            rcases List.mem_cons.mp hg with h | h
            · subst h; exact List.chain'_nil
            · exact pc.1 g h
          · intro g hg x hx
            simp only [List.head?_cons, Option.some.injEq] at hg
            subst hg
            simp at hx
    · rw [gapStepG_neg c v e st hgap]
      cases hrev : st.revResult with
      | nil =>
        cases hv : isEmptyText v.text with
        | true =>
          rw [emptyStepG_nil c v st hrev hv]
          exact ⟨hinv, fun g hg x hx => by have := hhead g hg x hx; omega⟩
        | false =>
          rw [emptyStepG_push c v st hv]
          refine ⟨?_, ?_⟩
          · intro g hg
            rcases List.mem_cons.mp hg with h | h
            · subst h; exact List.chain'_nil
            · exact hinv g h
          · intro g hg x hx
            simp only [List.head?_cons, Option.some.injEq] at hg
            subst hg
            simp at hx
      | cons r t =>
        cases hv : isEmptyText v.text with
        | true =>
          rw [emptyStepG_merge c v st r t hrev hv]
          have pc := pushAssign_chains st.groups v.number hinv
            (fun g hg x hx => by have := hhead g hg x hx; omega)
          exact ⟨pc.1, fun g hg x hx => by have := pc.2 g hg x hx; omega⟩
        | false =>
          rw [emptyStepG_push c v st hv]
          refine ⟨?_, ?_⟩
          · intro g hg
            rcases List.mem_cons.mp hg with h | h
            · subst h; exact List.chain'_nil
            · exact hinv g h
          · intro g hg x hx
            simp only [List.head?_cons, Option.some.injEq] at hg
            subst hg
            simp at hx
  | none =>
    have hgs := hnone hexp
    have hgroups : (pvStepG c st v).groups = (emptyStepG c v (gapStepG c v v.number st)).groups := by
      show (emptyStepG c v (gapStepG c v (st.expectedNumber.getD v.number) st)).groups = _
      rw [hexp]
      simp only [Option.getD_none]
    rw [hgroups, gapStepG_neg c v v.number st (lt_irrefl _)]
    cases hrev : st.revResult with
    | nil =>
      cases hv : isEmptyText v.text with
      | true =>
        rw [emptyStepG_nil c v st hrev hv]
        refine ⟨hinv, ?_⟩
        intro g hg
        rw [hgs] at hg
        simp at hg
      | false =>
        rw [emptyStepG_push c v st hv]
        refine ⟨?_, ?_⟩
        · intro g hg
          rcases List.mem_cons.mp hg with h | h
          · subst h; exact List.chain'_nil
          · exact hinv g h
        · intro g hg x hx
          simp only [List.head?_cons, Option.some.injEq] at hg
          subst hg
          simp at hx
    | cons r t =>
      cases hv : isEmptyText v.text with
      | true =>
        rw [emptyStepG_merge c v st r t hrev hv]
        refine ⟨?_, ?_⟩
        · intro g hg
          have hg' : g ∈ pushAssign st.groups v.number := hg
          rw [hgs] at hg'
          simp [pushAssign] at hg'
        · intro g hg
          have hg' : (pushAssign st.groups v.number).head? = some g := hg
          rw [hgs] at hg'
          simp [pushAssign] at hg'
      | false =>
        rw [emptyStepG_push c v st hv]
        refine ⟨?_, ?_⟩
        · intro g hg
          rcases List.mem_cons.mp hg with h | h
          · subst h; exact List.chain'_nil
          · exact hinv g h
        · intro g hg x hx
          simp only [List.head?_cons, Option.some.injEq] at hg
          subst hg
          simp at hx

/-- Over a strictly increasing chapter, every recorded assignment sequence
stays strictly increasing along the whole run. -/
theorem foldlG_groups (c : String) (vs : List Verse) :
    ∀ st : PVStateG,
    List.Chain' (fun a b : Verse => a.number < b.number) vs →
    (∀ e, st.expectedNumber = some e →
        (∀ w, vs.head? = some w → e ≤ w.number) ∧
        (∀ g, st.groups.head? = some g → ∀ x ∈ g, x < e)) →
    (st.expectedNumber = none → st.groups = []) →
    (∀ g ∈ st.groups, List.Chain' (fun a b : Int => a < b) g) →
    ∀ g ∈ (List.foldl (pvStepG c) st vs).groups, List.Chain' (fun a b : Int => a < b) g := by
  induction vs with
  | nil => intro st _ _ _ hinv; exact hinv
  | cons v vs ih =>
    intro st hchain hb hnone hinv
    rw [List.foldl_cons]
    obtain ⟨hv_vs, hchain'⟩ := List.chain'_cons'.mp hchain
    have hb' : ∀ e, st.expectedNumber = some e → e ≤ v.number ∧
        (∀ g, st.groups.head? = some g → ∀ x ∈ g, x < e) := by
      intro e hexp
      exact ⟨(hb e hexp).1 v rfl, (hb e hexp).2⟩
    have hstep := pvStepG_groups c st v hb' hnone hinv
    have hexp' : (pvStepG c st v).expectedNumber = some (v.number + 1) := rfl
    refine ih (pvStepG c st v) hchain' ?_ ?_ hstep.1
    · intro e hexp
      rw [hexp'] at hexp
      rw [Option.some.injEq] at hexp
      subst hexp
      constructor
      · intro w hw
        have hlt := hv_vs w hw
        omega
      · intro g hg x hx
        exact hstep.2 g hg x hx
    · intro hno
      rw [hexp'] at hno
      cases hno

/-- Claim C2 counterexample: on input `[{1,"A"},{5,""},{2,""}]` (verse numbers not
increasing) the values assigned to verse 1's `endNumber` are, in order,
4, 5 and then 2 — the last merge lowers it from 5 to 2. -/
theorem processVerses_endNumber_monotone_cex :
    (processVersesG [⟨1, some "A", none⟩, ⟨5, some "", none⟩, ⟨2, some "", none⟩] "c").groups =
      [[4, 5, 2]] ∧
    ¬ (∀ g ∈ (processVersesG [⟨1, some "A", none⟩, ⟨5, some "", none⟩,
                              ⟨2, some "", none⟩] "c").groups,
        List.Chain' (fun a b : Int => a < b) g) := by
  refine ⟨by decide, ?_⟩
  intro hall
  have h := hall [4, 5, 2] (by decide)
  rw [List.chain'_cons, List.chain'_cons] at h
  omega

/-- Claim C2, amended: the instrumented run `processVersesG` records, per retained
verse, every value a merge assigns to its `endNumber`, and erases to the
plain `processVerses` run; under the precondition that the chapter's verse
numbers are strictly increasing, each retained verse's recorded assignment
sequence is strictly increasing — once set by a merge, `endNumber` is only
ever raised by later merges, never lowered. -/
theorem processVerses_endNumber_monotone (verses : List Verse) (context : String)
    (h : List.Chain' (fun a b : Verse => a.number < b.number) verses) :
    processVerses verses context =
      ⟨(processVersesG verses context).revResult.reverse,
       (processVersesG verses context).fixed,
       (processVersesG verses context).log⟩ ∧
    ∀ g ∈ (processVersesG verses context).groups,
      List.Chain' (fun a b : Int => a < b) g := by
  refine ⟨erase_processVersesG verses context, ?_⟩
  unfold processVersesG
  exact foldlG_groups context verses ⟨[], none, false, [], []⟩ h
    (fun e he => nomatch he) (fun _ => rfl) (fun g hg => nomatch hg)

/-- Witness for `processVerses_endNumber_monotone`: the strictly increasing
chapter `[{1,"A"},{3,""}]`, whose single retained verse receives the
assignments 2 (gap) then 3 (empty merge). -/
theorem processVerses_endNumber_monotone_witness :
    List.Chain' (fun a b : Verse => a.number < b.number)
      [⟨1, some "A", none⟩, ⟨3, some "", none⟩] ∧
    (processVersesG [⟨1, some "A", none⟩, ⟨3, some "", none⟩] "c").groups = [[2, 3]] ∧
    List.Chain' (fun a b : Int => a < b) [2, 3] :=
  ⟨by rw [List.chain'_cons]; exact ⟨by norm_num, List.chain'_singleton _⟩, by decide,
   (processVerses_endNumber_monotone [⟨1, some "A", none⟩, ⟨3, some "", none⟩] "c"
     (by rw [List.chain'_cons]; exact ⟨by norm_num, List.chain'_singleton _⟩)).2 [2, 3]
     (by decide)⟩
